import Mathlib

/-!
Verification of the team-name canonicalization core of the Soccer-Calendar-App
repository: the greedy alias-clustering algorithm (`build_alias_clusters` in
`gui_app.py`), the fixed-vocabulary canonical resolver (`make_canonical_mapper`
in `main.py`, `normalize_team_name` in `db.py`) and timezone inference
(`_detect_timezone` in `calendar_utils.py`).

The similarity scorer is rapidfuzz's `fuzz.token_set_ratio` (resp.
`fuzz.token_sort_ratio`), embedded below over `ℚ` (rapidfuzz computes the same
rational values in floating point; all values that arise have small
denominators, so the comparisons agree).  The clustering and resolution
algorithms are stated over an arbitrary scorer parameter `sc` and instantiated
at the embedded scorer, mirroring the code.
-/

/-! ### Tokenization (Python `str.split()`) -/

/-- Splits a character list into maximal whitespace-free words, like Python
`str.split()` with no argument: runs of whitespace separate tokens and produce
no empty tokens.  `cur` is the current word accumulated in reverse. -/
def splitWsGo : List Char → List Char → List (List Char)
  | [], cur => if cur = [] then [] else [cur.reverse]
  | c :: cs, cur =>
    if c.isWhitespace then
      (if cur = [] then splitWsGo cs [] else cur.reverse :: splitWsGo cs [])
    else splitWsGo cs (c :: cur)

/-- Python `s.split()`: whitespace-separated tokens of a string. -/
def tokenize (s : String) : List String :=
  (splitWsGo s.data []).map (fun cs => String.mk cs)

/-- Python truthiness of `name.strip()` being empty: the string has no
non-whitespace character. -/
def isBlank (s : String) : Bool :=
  s.data.all (fun c => c.isWhitespace)

/-! ### Indel similarity (rapidfuzz `fuzz.ratio`) -/

/-- One row-update of the longest-common-subsequence dynamic program.
`prev` is the previous row starting at the diagonal cell, `left` is the value
of the cell to the left of the one being computed. -/
def lcsNextRow (ca : Char) : List Char → List Nat → Nat → List Nat
  | [], _, _ => []
  | _ :: _, [], _ => []
  | cb :: bs, diag :: prevRest, left =>
    let up := prevRest.headD 0
    let cur := if ca = cb then diag + 1 else max up left
    cur :: lcsNextRow ca bs prevRest cur

/-- Length of a longest common subsequence of two character lists
(row-by-row dynamic program). -/
def lcsLen (a b : List Char) : Nat :=
  let initRow := List.replicate (b.length + 1) 0
  (a.foldl (fun row ca => 0 :: lcsNextRow ca b row 0) initRow).getLastD 0

/-- Indel (insertion/deletion) edit distance between two strings,
`|a| + |b| - 2·LCS(a,b)`. -/
def indelDist (a b : String) : Nat :=
  a.length + b.length - 2 * lcsLen a.data b.data

/-- rapidfuzz `fuzz.ratio`: normalized indel similarity scaled to `[0,100]`;
`100` on two empty strings. -/
def fuzzScore (a b : String) : ℚ :=
  if a.length + b.length = 0 then 100
  else 100 * (1 - (indelDist a b : ℚ) / (a.length + b.length : ℚ))

/-- Sort a list of strings lexicographically (Python `sorted`). -/
def sortStr (l : List String) : List String :=
  List.insertionSort (· ≤ ·) l

/-- rapidfuzz `fuzz.token_sort_ratio`: `fuzz.ratio` of the space-joined sorted
token lists of the two inputs. -/
def tokenSortScore (s1 s2 : String) : ℚ :=
  fuzzScore (" ".intercalate (sortStr (tokenize s1)))
    (" ".intercalate (sortStr (tokenize s2)))

/-- rapidfuzz `fuzz.token_set_ratio`: compares the distinct-token sets of both
inputs.  `0` if either token set is empty; `100` if the sets intersect and one
contains the other; otherwise the maximum of the indel similarities between
(intersection, intersection + difference₁), (intersection, intersection +
difference₂) and (intersection + difference₁, intersection + difference₂),
where each part is the space-joined sorted token list (the shared intersection
prefix cancels, so only lengths and the distance between the joined
differences enter). -/
def tokenSetScore (s1 s2 : String) : ℚ :=
  let ta := (tokenize s1).dedup
  let tb := (tokenize s2).dedup
  if ta.isEmpty || tb.isEmpty then 0
  else
    let sect := ta.filter (fun t => tb.contains t)
    let dab := ta.filter (fun t => !tb.contains t)
    let dba := tb.filter (fun t => !ta.contains t)
    if !sect.isEmpty && (dab.isEmpty || dba.isEmpty) then 100
    else
      let dabJ := " ".intercalate (sortStr dab)
      let dbaJ := " ".intercalate (sortStr dba)
      let sectLen := (" ".intercalate sect).length
      let eps := if sectLen = 0 then 0 else 1
      let sectAbLen := sectLen + eps + dabJ.length
      let sectBaLen := sectLen + eps + dbaJ.length
      let r1 := 100 * (1 - (indelDist dabJ dbaJ : ℚ) / (sectAbLen + sectBaLen : ℚ))
      let r2 := 100 * (1 - ((eps + dabJ.length : ℚ)) / (sectLen + sectAbLen : ℚ))
      let r3 := 100 * (1 - ((eps + dbaJ.length : ℚ)) / (sectLen + sectBaLen : ℚ))
      max r1 (max r2 r3)

/-! ### Best-match extraction (rapidfuzz `process.extractOne`) -/

/-- Linear scan keeping the current best `(choice, score)`; a later choice
replaces the current best only with a strictly greater score, so the first of
equal maxima wins, as in rapidfuzz `process.extractOne`. -/
def best1 (sc : String → String → ℚ) (q : String) :
    (String × ℚ) → List String → String × ℚ
  | cur, [] => cur
  | cur, c :: cs =>
    best1 sc q (if sc q c > cur.2 then (c, sc q c) else cur) cs

/-- rapidfuzz `process.extractOne(q, choices, scorer=sc)` with no score
cutoff: `none` on an empty choice list, otherwise the first choice attaining
the maximal score, with its score. -/
def extractOne (sc : String → String → ℚ) (q : String) :
    List String → Option (String × ℚ)
  | [] => none
  | c :: cs => some (best1 sc q (c, sc q c) cs)

/-! ### Alias clustering (`build_alias_clusters` in `gui_app.py`) -/

/-- The `protect_pairs` set hard-coded in `build_alias_clusters`. -/
def protect_pairs : List (String × String) :=
  [("Paris FC", "Paris Saint-Germain"), ("Paris", "Paris Saint-Germain")]

/-- `protected(a, b)`: the pair occurs in `pairs` in either order. -/
def isProtected (pairs : List (String × String)) (a b : String) : Bool :=
  decide ((a, b) ∈ pairs ∨ (b, a) ∈ pairs)

/-- The mutable state of the clustering loop: the growing canonical list and
the alias→canonical dict (an insertion-ordered association list, as a Python
dict). -/
structure ClusterState where
  canon : List String
  amap : List (String × String)
deriving DecidableEq

/-- Python dict assignment `m[k] = v`: update the first entry with key `k` in
place, else append. -/
def dinsert : List (String × String) → String → String → List (String × String)
  | [], k, v => [(k, v)]
  | p :: rest, k, v =>
    if p.1 = k then (k, v) :: rest else p :: dinsert rest k v

/-- Keys of an association list, in insertion order. -/
def akeys (m : List (String × String)) : List String :=
  m.map Prod.fst

/-- Values of an association list, in insertion order. -/
def avalues (m : List (String × String)) : List String :=
  m.map Prod.snd

/-- Python dict lookup: value of the first entry with the given key. -/
def alookup (k : String) : List (String × String) → Option String
  | [] => none
  | p :: rest => if p.1 = k then some p.2 else alookup k rest

/-- One iteration of the loop body of `build_alias_clusters` for `name`:
if the canonical list is empty, `name` becomes its own canonical; otherwise
the best-scoring canonical is merged into when its score reaches the
threshold and the pair is not protected, else `name` becomes a new
canonical. -/
def stepG (sc : String → String → ℚ) (pairs : List (String × String)) (T : ℚ)
    (st : ClusterState) (n : String) : ClusterState :=
  if st.canon.isEmpty then ⟨[n], dinsert st.amap n n⟩
  else
    match extractOne sc n st.canon with
    | some (b, s) =>
      if T ≤ s ∧ isProtected pairs n b = false then ⟨st.canon, dinsert st.amap n b⟩
      else ⟨st.canon ++ [n], dinsert st.amap n n⟩
    | none => ⟨st.canon ++ [n], dinsert st.amap n n⟩

/-- The clustering loop over a list of names. -/
def runG (sc : String → String → ℚ) (pairs : List (String × String)) (T : ℚ)
    (st : ClusterState) (l : List String) : ClusterState :=
  l.foldl (stepG sc pairs T) st

/-- Python `sorted(set(l))`: the sorted list of distinct elements. -/
def sortedDedup (l : List String) : List String :=
  sortStr l.dedup

/-- `build_alias_clusters` generalized over the scorer and the protected-pair
set: sort the input names, run the greedy loop, and return
`(sorted(set(alias_to_canon.values())), alias_to_canon)`. -/
def buildG (sc : String → String → ℚ) (pairs : List (String × String))
    (team_names : List String) (T : ℚ) :
    List String × List (String × String) :=
  let st := runG sc pairs T ⟨[], []⟩ (sortStr team_names)
  (sortedDedup (avalues st.amap), st.amap)

/-- `build_alias_clusters(team_names, threshold)` from `gui_app.py`: the
greedy clustering with scorer `fuzz.token_set_ratio` and the hard-coded
protected pairs. -/
def build_alias_clusters (team_names : List String) (T : ℚ) :
    List String × List (String × String) :=
  buildG tokenSetScore protect_pairs team_names T

/-! ### Canonical resolution (`make_canonical_mapper` in `main.py`,
`normalize_team_name` in `db.py`) -/

/-- A Python value passed as a team name: a string, or a non-string value
such as `None` (the `isinstance(name, str)` guard in `main.py` treats every
non-string alike). -/
inductive PyVal where
  | pstr (s : String)
  | pnone
deriving DecidableEq

/-- The closure `_canon` produced by `make_canonical_mapper`, generalized over
the scorer: returns `name` unchanged when the vocabulary is empty, `name` is
not a string, or `name.strip()` is empty; otherwise returns the best
vocabulary match when its score reaches the threshold, else `name`. -/
def canonMapG (sc : String → String → ℚ) (selected : List String) (T : ℚ)
    (name : PyVal) : PyVal :=
  if selected = [] then name
  else
    match name with
    | PyVal.pnone => PyVal.pnone
    | PyVal.pstr s =>
      if isBlank s then PyVal.pstr s
      else
        match extractOne sc s selected with
        | some (b, score) => if T ≤ score then PyVal.pstr b else PyVal.pstr s
        | none => PyVal.pstr s

/-- `make_canonical_mapper(selected_teams, threshold)` applied to a name:
`main.py` uses scorer `fuzz.token_set_ratio`. -/
def make_canonical_mapper (selected : List String) (T : ℚ) (name : PyVal) : PyVal :=
  canonMapG tokenSetScore selected T name

/-- `normalize_team_name(name, team_list, threshold)` from `db.py` on a
string name: scorer `fuzz.token_sort_ratio`; identity on an empty
vocabulary. -/
def normalize_team_name (name : String) (team_list : List String) (T : ℚ) : String :=
  if team_list = [] then name
  else
    match extractOne tokenSortScore name team_list with
    | some (b, score) => if T ≤ score then b else name
    | none => name

/-! ### Timezone inference (`_detect_timezone` in `calendar_utils.py`) -/

/-- `LEAGUE_TZ_MAP` from `calendar_utils.py`, in source (dict insertion)
order. -/
def LEAGUE_TZ_MAP : List (String × String) :=
  [("epl", "Europe/London"),
   ("premier", "Europe/London"),
   ("la-liga", "Europe/Madrid"),
   ("laliga", "Europe/Madrid"),
   ("bundesliga", "Europe/Berlin"),
   ("serie-a", "Europe/Rome"),
   ("ligue-1", "Europe/Paris"),
   ("ligue", "Europe/Paris"),
   ("eredivisie", "Europe/Amsterdam"),
   ("champions", "Europe/Zurich"),
   ("europa", "Europe/Zurich"),
   ("conference", "Europe/Zurich")]

/-- Python `label.lower()`: lowercase every character (ASCII-faithful). -/
def strLower (s : String) : String :=
  String.mk (s.data.map Char.toLower)

/-- Python `pat in s`: substring test on code points. -/
def isSubstrB (pat s : String) : Bool :=
  (s.data.tails).any (fun t => pat.data.isPrefixOf t)

/-- `_detect_timezone(competition_name)`: UTC when the label is `None` or
empty, else the timezone of the first table key that is a substring of the
lowercased label, defaulting to UTC.  Timezones are modelled by their IANA
identifier strings. -/
def detect_timezone (label : Option String) : String :=
  match label with
  | none => "UTC"
  | some s =>
    if s = "" then "UTC"
    else
      match LEAGUE_TZ_MAP.find? (fun kv => isSubstrB kv.1 (strLower s)) with
      | some kv => kv.2
      | none => "UTC"

/-- Remove every element already seen: `ddk seen l` keeps the first
occurrence of each element of `l` not in `seen`. -/
def ddk (seen : List String) : List String → List String
  | [] => []
  | c :: cs => if c ∈ seen then ddk seen cs else c :: ddk (c :: seen) cs

/-- Keep-first deduplication. -/
def kfirst (l : List String) : List String :=
  ddk [] l

/-- The simulation relation of the duplicate-collapsing argument: equal alias
maps and canonical lists equal after keep-first deduplication. -/
def Rrel (s t : ClusterState) : Prop :=
  s.amap = t.amap ∧ kfirst s.canon = kfirst t.canon

/-- Collapse adjacent duplicates (on a sorted list this removes all
duplicates). -/
def adDedup : List String → List String
  | [] => []
  | [a] => [a]
  | a :: b :: t => if a = b then adDedup (b :: t) else a :: adDedup (b :: t)

/-- Invariants maintained by the clustering loop: every canonical maps to
itself, every mapped value is a canonical no greater than its key, every
canonical is a key, and no entry joins a protected pair. -/
structure Good (pairs : List (String × String)) (st : ClusterState) : Prop where
  canon_self : ∀ c ∈ st.canon, alookup c st.amap = some c
  val_canon : ∀ p ∈ st.amap, p.2 ∈ st.canon
  val_le : ∀ p ∈ st.amap, p.2 ≤ p.1
  canon_keys : ∀ c ∈ st.canon, c ∈ akeys st.amap
  not_prot : ∀ p ∈ st.amap, isProtected pairs p.1 p.2 = false

/-- The duplicate-free strictly sorted version of the processing order. -/
def adSort (l : List String) : List String :=
  adDedup (sortStr l)


/-! ### Association-list lemmas -/

theorem alookup_eq_none {k : String} :
    ∀ {m : List (String × String)}, alookup k m = none ↔ k ∉ akeys m := by
  intro m
  induction m with
  | nil => simp [alookup, akeys]
  | cons p rest ih =>
    by_cases h : p.1 = k
    · simp [alookup, akeys, h]
    · have h2 : ¬ k = p.1 := fun hh => h hh.symm
      simp [alookup, akeys, h, h2]
      simpa [akeys] using ih

theorem alookup_mem {k v : String} :
    ∀ {m : List (String × String)}, alookup k m = some v → (k, v) ∈ m := by
  intro m
  induction m with
  | nil => simp [alookup]
  | cons p rest ih =>
    by_cases h : p.1 = k
    · simp only [alookup, h, if_true]
      intro h2
      have hp : p = (k, v) := by
        cases p with
        | mk a b =>
          simp only at h
          injection h2 with h2
          simp only at h2
          rw [h, h2]
      rw [hp]
      exact List.mem_cons_self _ _
    · simp only [alookup, h, if_false]
      intro h2
      exact List.mem_cons_of_mem _ (ih h2)

theorem dinsert_fresh {k v : String} :
    ∀ {m : List (String × String)}, k ∉ akeys m → dinsert m k v = m ++ [(k, v)] := by
  intro m
  induction m with
  | nil => simp [dinsert]
  | cons p rest ih =>
    intro h
    simp only [akeys, List.map_cons, List.mem_cons] at h
    push_neg at h
    have hne : ¬ p.1 = k := fun hh => h.1 hh.symm
    simp only [dinsert, if_neg hne]
    rw [ih (by simpa [akeys] using h.2)]
    simp

theorem alookup_append_left {k v : String} {m1 m2 : List (String × String)}
    (h : alookup k m1 = some v) : alookup k (m1 ++ m2) = some v := by
  induction m1 with
  | nil => simp [alookup] at h
  | cons p rest ih =>
    by_cases hp : p.1 = k <;> simp_all [alookup]

theorem alookup_append_right {k : String} {m1 m2 : List (String × String)}
    (h : k ∉ akeys m1) : alookup k (m1 ++ m2) = alookup k m2 := by
  induction m1 with
  | nil => simp
  | cons p rest ih =>
    simp only [akeys, List.map_cons, List.mem_cons] at h
    push_neg at h
    have hne : ¬ p.1 = k := fun hh => h.1 hh.symm
    simp only [List.cons_append, alookup, if_neg hne]
    exact ih (by simpa [akeys] using h.2)

theorem dinsert_dinsert (m : List (String × String)) (k v w : String) :
    dinsert (dinsert m k v) k w = dinsert m k w := by
  induction m with
  | nil => simp [dinsert]
  | cons p rest ih =>
    by_cases h : p.1 = k <;> simp [dinsert, h, ih]

theorem akeys_append (m1 m2 : List (String × String)) :
    akeys (m1 ++ m2) = akeys m1 ++ akeys m2 := by
  simp [akeys]

theorem avalues_append (m1 m2 : List (String × String)) :
    avalues (m1 ++ m2) = avalues m1 ++ avalues m2 := by
  simp [avalues]

theorem mem_avalues {v : String} {m : List (String × String)} :
    v ∈ avalues m ↔ ∃ p ∈ m, p.2 = v := by
  simp [avalues]

theorem mem_akeys {k : String} {m : List (String × String)} :
    k ∈ akeys m ↔ ∃ p ∈ m, p.1 = k := by
  simp [akeys]

/-! ### Lemmas about `best1` and `extractOne` -/

theorem best1_mem (sc : String → String → ℚ) (q : String) :
    ∀ (l : List String) (cur : String × ℚ),
      (best1 sc q cur l).1 = cur.1 ∨ (best1 sc q cur l).1 ∈ l := by
  intro l
  induction l with
  | nil => intro cur; simp [best1]
  | cons c cs ih =>
    intro cur
    simp only [best1]
    by_cases hc : sc q c > cur.2
    · rw [if_pos hc]
      rcases ih (c, sc q c) with h | h
      · right
        rw [h]
        exact List.mem_cons_self _ _
      · exact Or.inr (List.mem_cons_of_mem _ h)
    · rw [if_neg hc]
      rcases ih cur with h | h
      · exact Or.inl h
      · exact Or.inr (List.mem_cons_of_mem _ h)

theorem best1_snd (sc : String → String → ℚ) (q : String) :
    ∀ (l : List String) (cur : String × ℚ), cur.2 = sc q cur.1 →
      (best1 sc q cur l).2 = sc q (best1 sc q cur l).1 := by
  intro l
  induction l with
  | nil => intro cur h; simpa [best1] using h
  | cons c cs ih =>
    intro cur h
    simp only [best1]
    apply ih
    by_cases hc : sc q c > cur.2
    · rw [if_pos hc]
    · rw [if_neg hc]; exact h

theorem best1_ge_cur (sc : String → String → ℚ) (q : String) :
    ∀ (l : List String) (cur : String × ℚ), cur.2 ≤ (best1 sc q cur l).2 := by
  intro l
  induction l with
  | nil => intro cur; simp [best1]
  | cons c cs ih =>
    intro cur
    simp only [best1]
    by_cases hc : sc q c > cur.2
    · rw [if_pos hc]
      exact le_trans (le_of_lt hc) (ih (c, sc q c))
    · rw [if_neg hc]
      exact ih cur

theorem best1_le_scores (sc : String → String → ℚ) (q : String) :
    ∀ (l : List String) (cur : String × ℚ), ∀ x ∈ l, sc q x ≤ (best1 sc q cur l).2 := by
  intro l
  induction l with
  | nil => simp
  | cons c cs ih =>
    intro cur x hx
    simp only [best1]
    rcases List.mem_cons.mp hx with rfl | hx
    · by_cases hc : sc q x > cur.2
      · rw [if_pos hc]
        exact best1_ge_cur sc q cs (x, sc q x)
      · rw [if_neg hc]
        exact le_trans (le_of_not_lt hc) (best1_ge_cur sc q cs cur)
    · exact ih _ x hx

theorem best1_append (sc : String → String → ℚ) (q : String) :
    ∀ (l : List String) (cur : String × ℚ) (x : String),
      best1 sc q cur (l ++ [x]) =
        (if sc q x > (best1 sc q cur l).2 then (x, sc q x) else best1 sc q cur l) := by
  intro l
  induction l with
  | nil => intro cur x; simp [best1]
  | cons c cs ih =>
    intro cur x
    simp only [List.cons_append, best1]
    exact ih _ x

theorem extractOne_eq_none (sc : String → String → ℚ) (q : String) (l : List String) :
    extractOne sc q l = none ↔ l = [] := by
  cases l <;> simp [extractOne]

theorem extractOne_mem {sc : String → String → ℚ} {q : String} {l : List String}
    {b : String} {s : ℚ} (h : extractOne sc q l = some (b, s)) :
    b ∈ l ∧ s = sc q b := by
  cases l with
  | nil => simp [extractOne] at h
  | cons c cs =>
    simp only [extractOne, Option.some.injEq] at h
    have hmem := best1_mem sc q cs (c, sc q c)
    have hsnd := best1_snd sc q cs (c, sc q c) rfl
    rw [h] at hmem hsnd
    simp only at hmem hsnd
    refine ⟨?_, hsnd⟩
    rcases hmem with h1 | h1
    · rw [h1]
      exact List.mem_cons_self _ _
    · exact List.mem_cons_of_mem _ h1

theorem extractOne_le {sc : String → String → ℚ} {q : String} {l : List String}
    {b : String} {s : ℚ} (h : extractOne sc q l = some (b, s)) :
    ∀ x ∈ l, sc q x ≤ s := by
  cases l with
  | nil => simp [extractOne] at h
  | cons c cs =>
    simp only [extractOne, Option.some.injEq] at h
    intro x hx
    rcases List.mem_cons.mp hx with rfl | hx
    · have h2 := best1_ge_cur sc q cs (x, sc q x)
      rw [h] at h2
      exact h2
    · have h2 := best1_le_scores sc q cs (c, sc q c) x hx
      rw [h] at h2
      exact h2

/-! ### Keep-first deduplication and the duplicate-collapsing simulation

`sorted(team_names)` in the Python code keeps duplicate names; the loop
processes a duplicate immediately after its first copy (duplicates are
adjacent after sorting).  We show that a run over a list and over its
adjacent-deduplicated version produce the same alias map, and canonical
lists equal up to duplicate appends (which never change the first-maximum
returned by `extractOne`). -/

theorem ddk_cons_mem {c : String} {seen cs : List String} (h : c ∈ seen) :
    ddk seen (c :: cs) = ddk seen cs := by
  simp [ddk, h]

theorem ddk_cons_not_mem {c : String} {seen cs : List String} (h : c ∉ seen) :
    ddk seen (c :: cs) = c :: ddk (c :: seen) cs := by
  simp [ddk, h]

theorem mem_ddk {x : String} :
    ∀ {l seen : List String}, x ∈ ddk seen l ↔ x ∈ l ∧ x ∉ seen := by
  intro l
  induction l with
  | nil => intro seen; simp [ddk]
  | cons c cs ih =>
    intro seen
    by_cases h : c ∈ seen
    · rw [ddk_cons_mem h, ih]
      simp only [List.mem_cons]
      constructor
      · rintro ⟨h1, h2⟩
        exact ⟨Or.inr h1, h2⟩
      · rintro ⟨h1 | h1, h2⟩
        · exact absurd (h1 ▸ h) h2
        · exact ⟨h1, h2⟩
    · rw [ddk_cons_not_mem h]
      simp only [List.mem_cons, ih, List.mem_cons]
      by_cases hxc : x = c
      · subst hxc
        simp [h]
      · simp only [hxc, false_or]

theorem mem_kfirst {x : String} {l : List String} : x ∈ kfirst l ↔ x ∈ l := by
  simp [kfirst, mem_ddk]

theorem ddk_eq_nil :
    ∀ {l seen : List String}, ddk seen l = [] ↔ ∀ x ∈ l, x ∈ seen := by
  intro l
  induction l with
  | nil => intro seen; simp [ddk]
  | cons c cs ih =>
    intro seen
    by_cases h : c ∈ seen
    · rw [ddk_cons_mem h, ih]
      simp [h]
    · rw [ddk_cons_not_mem h]
      simp only [List.cons_ne_nil, false_iff]
      push_neg
      exact ⟨c, List.mem_cons_self _ _, h⟩

theorem kfirst_eq_nil {l : List String} : kfirst l = [] ↔ l = [] := by
  cases l with
  | nil => simp [kfirst, ddk]
  | cons c cs =>
    constructor
    · intro h
      rw [kfirst, ddk_eq_nil] at h
      exact absurd (h c (List.mem_cons_self _ _)) (List.not_mem_nil c)
    · intro h
      exact absurd h (List.cons_ne_nil c cs)

theorem ddk_append {x : String} :
    ∀ {l seen : List String},
      ddk seen (l ++ [x]) =
        ddk seen l ++ (if x ∈ seen ∨ x ∈ l then [] else [x]) := by
  intro l
  induction l with
  | nil =>
    intro seen
    by_cases h : x ∈ seen <;> simp [ddk, h]
  | cons c cs ih =>
    intro seen
    have hstep : (c :: cs) ++ [x] = c :: (cs ++ [x]) := rfl
    rw [hstep]
    by_cases h : c ∈ seen
    · rw [ddk_cons_mem h, ddk_cons_mem h, ih]
      have hiff : (x ∈ seen ∨ x ∈ cs) ↔ (x ∈ seen ∨ x ∈ c :: cs) := by
        simp only [List.mem_cons]
        constructor
        · rintro (h1 | h1)
          · exact Or.inl h1
          · exact Or.inr (Or.inr h1)
        · rintro (h1 | rfl | h1)
          · exact Or.inl h1
          · exact Or.inl h
          · exact Or.inr h1
      rw [if_congr hiff rfl rfl]
    · rw [ddk_cons_not_mem h, ddk_cons_not_mem h, ih, List.cons_append]
      have hiff : (x ∈ c :: seen ∨ x ∈ cs) ↔ (x ∈ seen ∨ x ∈ c :: cs) := by
        simp only [List.mem_cons]
        constructor
        · rintro ((rfl | h1) | h1)
          · exact Or.inr (Or.inl rfl)
          · exact Or.inl h1
          · exact Or.inr (Or.inr h1)
        · rintro (h1 | rfl | h1)
          · exact Or.inl (Or.inr h1)
          · exact Or.inl (Or.inl rfl)
          · exact Or.inr h1
      rw [if_congr hiff rfl rfl]

theorem kfirst_append {l : List String} {x : String} :
    kfirst (l ++ [x]) = kfirst l ++ (if x ∈ l then [] else [x]) := by
  simp only [kfirst, ddk_append]
  congr 1
  simp

theorem best1_ddk (sc : String → String → ℚ) (q : String) :
    ∀ (l : List String) (seen : List String) (cur : String × ℚ),
      (∀ x ∈ seen, sc q x ≤ cur.2) →
      best1 sc q cur (ddk seen l) = best1 sc q cur l := by
  intro l
  induction l with
  | nil => intro seen cur _; simp [ddk]
  | cons c cs ih =>
    intro seen cur hseen
    by_cases h : c ∈ seen
    · rw [ddk, if_pos h]
      have hc : ¬ sc q c > cur.2 := not_lt.mpr (hseen c h)
      rw [ih seen cur hseen]
      conv_rhs => rw [best1]
      rw [if_neg hc]
    · rw [ddk, if_neg h]
      simp only [best1]
      apply ih
      intro x hx
      rcases List.mem_cons.mp hx with rfl | hx
      · by_cases hc : sc q x > cur.2
        · rw [if_pos hc]
        · rw [if_neg hc]
          exact le_of_not_lt hc
      · refine le_trans (hseen x hx) ?_
        by_cases hc : sc q c > cur.2
        · rw [if_pos hc]
          exact le_of_lt hc
        · rw [if_neg hc]

theorem extractOne_kfirst (sc : String → String → ℚ) (q : String) (l : List String) :
    extractOne sc q (kfirst l) = extractOne sc q l := by
  cases l with
  | nil => rfl
  | cons c cs =>
    have h : kfirst (c :: cs) = c :: ddk [c] cs := by
      simp [kfirst, ddk]
    rw [h]
    simp only [extractOne]
    rw [best1_ddk]
    intro x hx
    rcases List.mem_cons.mp hx with rfl | hx
    · exact le_refl _
    · simp at hx

/-- Branch lemma: an empty canonical list makes `name` its own canonical. -/
theorem stepG_nil (sc : String → String → ℚ) (pairs : List (String × String))
    (T : ℚ) (st : ClusterState) (n : String) (h : st.canon = []) :
    stepG sc pairs T st n = ⟨[n], dinsert st.amap n n⟩ := by
  simp [stepG, h]

/-- Branch lemma: with a non-empty canonical list the step is decided by the
best extraction. -/
theorem stepG_cons (sc : String → String → ℚ) (pairs : List (String × String))
    (T : ℚ) (st : ClusterState) (n b : String) (s : ℚ)
    (h : st.canon ≠ []) (he : extractOne sc n st.canon = some (b, s)) :
    stepG sc pairs T st n =
      if T ≤ s ∧ isProtected pairs n b = false then ⟨st.canon, dinsert st.amap n b⟩
      else ⟨st.canon ++ [n], dinsert st.amap n n⟩ := by
  have he2 : st.canon.isEmpty = false := by
    cases hcc : st.canon with
    | nil => exact absurd hcc h
    | cons a as => rfl
  simp [stepG, he2, he]

theorem extractOne_append (sc : String → String → ℚ) (q : String)
    (l : List String) (x b : String) (s : ℚ)
    (h : extractOne sc q l = some (b, s)) :
    extractOne sc q (l ++ [x]) =
      some (if sc q x > s then (x, sc q x) else (b, s)) := by
  cases l with
  | nil => simp [extractOne] at h
  | cons c cs =>
    simp only [extractOne, Option.some.injEq] at h
    simp only [List.cons_append, extractOne, best1_append, h, Option.some.injEq]

theorem Rrel_refl (s : ClusterState) : Rrel s s := ⟨rfl, rfl⟩

theorem Rrel_trans {a b c : ClusterState} (h1 : Rrel a b) (h2 : Rrel b c) :
    Rrel a c :=
  ⟨h1.1.trans h2.1, h1.2.trans h2.2⟩

theorem extractOne_congr (sc : String → String → ℚ) (q : String)
    {l1 l2 : List String} (h : kfirst l1 = kfirst l2) :
    extractOne sc q l1 = extractOne sc q l2 := by
  rw [← extractOne_kfirst sc q l1, h, extractOne_kfirst]

/-- `Rrel` is preserved by any clustering step. -/
theorem stepR (sc : String → String → ℚ) (pairs : List (String × String))
    (T : ℚ) {s t : ClusterState} (h : Rrel s t) (n : String) :
    Rrel (stepG sc pairs T s n) (stepG sc pairs T t n) := by
  obtain ⟨hm, hc⟩ := h
  have hemp : (s.canon = []) ↔ (t.canon = []) := by
    constructor
    · intro hh
      apply kfirst_eq_nil.mp
      rw [← hc, hh]
      rfl
    · intro hh
      apply kfirst_eq_nil.mp
      rw [hc, hh]
      rfl
  by_cases hs : s.canon = []
  · have ht := hemp.mp hs
    rw [stepG_nil sc pairs T s n hs, stepG_nil sc pairs T t n ht]
    exact ⟨by rw [hm], rfl⟩
  · have ht : t.canon ≠ [] := fun hh => hs (hemp.mpr hh)
    have he : extractOne sc n s.canon = extractOne sc n t.canon :=
      extractOne_congr sc n hc
    rcases hsome : extractOne sc n s.canon with _ | ⟨b, sq⟩
    · exact absurd ((extractOne_eq_none sc n s.canon).mp hsome) hs
    · have hsome2 : extractOne sc n t.canon = some (b, sq) := by
        rw [← he, hsome]
      rw [stepG_cons sc pairs T s n b sq hs hsome,
        stepG_cons sc pairs T t n b sq ht hsome2]
      by_cases hcond : T ≤ sq ∧ isProtected pairs n b = false
      · rw [if_pos hcond, if_pos hcond]
        exact ⟨by rw [hm], hc⟩
      · rw [if_neg hcond, if_neg hcond]
        refine ⟨by rw [hm], ?_⟩
        rw [kfirst_append, kfirst_append, hc]
        have hmemiff : (n ∈ s.canon) ↔ (n ∈ t.canon) := by
          rw [← mem_kfirst, hc, mem_kfirst]
        rw [if_congr hmemiff rfl rfl]

/-- Processing the same name twice in a row is the same as processing it
once, up to `Rrel`: the duplicate either re-merges to the same target,
merges with itself, or appends a duplicate canonical entry that keep-first
deduplication removes. -/
theorem step_step (sc : String → String → ℚ) (pairs : List (String × String))
    (T : ℚ) (st : ClusterState) (n : String) :
    Rrel (stepG sc pairs T (stepG sc pairs T st n) n) (stepG sc pairs T st n) := by
  by_cases hs : st.canon = []
  · rw [stepG_nil sc pairs T st n hs]
    have hne : ([n] : List String) ≠ [] := List.cons_ne_nil n []
    have hext : extractOne sc n [n] = some (n, sc n n) := rfl
    rw [stepG_cons sc pairs T ⟨[n], dinsert st.amap n n⟩ n n (sc n n) hne hext]
    by_cases hcond : T ≤ sc n n ∧ isProtected pairs n n = false
    · rw [if_pos hcond]
      exact ⟨dinsert_dinsert st.amap n n n, rfl⟩
    · rw [if_neg hcond]
      refine ⟨dinsert_dinsert st.amap n n n, ?_⟩
      simp [kfirst, ddk]
  · rcases hsome : extractOne sc n st.canon with _ | ⟨b, sq⟩
    · exact absurd ((extractOne_eq_none sc n st.canon).mp hsome) hs
    rw [stepG_cons sc pairs T st n b sq hs hsome]
    by_cases hcond : T ≤ sq ∧ isProtected pairs n b = false
    · rw [if_pos hcond]
      have hext : extractOne sc n (⟨st.canon, dinsert st.amap n b⟩ : ClusterState).canon
          = some (b, sq) := hsome
      rw [stepG_cons sc pairs T ⟨st.canon, dinsert st.amap n b⟩ n b sq hs hext,
        if_pos hcond]
      exact ⟨dinsert_dinsert st.amap n b b, rfl⟩
    · rw [if_neg hcond]
      have hne2 : st.canon ++ [n] ≠ [] := by
        simp
      have hext : extractOne sc n (st.canon ++ [n]) =
          some (if sc n n > sq then (n, sc n n) else (b, sq)) :=
        extractOne_append sc n st.canon n b sq hsome
      by_cases hnn : sc n n > sq
      · rw [if_pos hnn] at hext
        rw [stepG_cons sc pairs T ⟨st.canon ++ [n], dinsert st.amap n n⟩ n n
          (sc n n) hne2 hext]
        by_cases hcond2 : T ≤ sc n n ∧ isProtected pairs n n = false
        · rw [if_pos hcond2]
          exact ⟨dinsert_dinsert st.amap n n n, rfl⟩
        · rw [if_neg hcond2]
          refine ⟨dinsert_dinsert st.amap n n n, ?_⟩
          rw [kfirst_append (l := st.canon ++ [n]) (x := n),
            if_pos (List.mem_append_right st.canon (List.mem_cons_self n []))]
          simp
      · rw [if_neg hnn] at hext
        rw [stepG_cons sc pairs T ⟨st.canon ++ [n], dinsert st.amap n n⟩ n b sq
          hne2 hext, if_neg hcond]
        refine ⟨dinsert_dinsert st.amap n n n, ?_⟩
        rw [kfirst_append (l := st.canon ++ [n]) (x := n),
          if_pos (List.mem_append_right st.canon (List.mem_cons_self n []))]
        simp

/-- `Rrel` is preserved by running any list of names. -/
theorem runG_congr (sc : String → String → ℚ) (pairs : List (String × String))
    (T : ℚ) : ∀ (l : List String) {s t : ClusterState},
    Rrel s t → Rrel (runG sc pairs T s l) (runG sc pairs T t l) := by
  intro l
  induction l with
  | nil => intro s t h; exact h
  | cons c cs ih =>
    intro s t h
    simpa only [runG, List.foldl_cons] using ih (stepR sc pairs T h c)

/-- Running a list and running its adjacent-deduplication are `Rrel`-related:
in particular they produce the same alias map. -/
theorem runG_adDedup (sc : String → String → ℚ) (pairs : List (String × String))
    (T : ℚ) : ∀ (l : List String) (st : ClusterState),
      Rrel (runG sc pairs T st l) (runG sc pairs T st (adDedup l)) := by
  intro l
  induction l with
  | nil => intro st; exact Rrel_refl _
  | cons c cs ih =>
    intro st
    cases cs with
    | nil => exact Rrel_refl _
    | cons b t =>
      by_cases hcb : c = b
      · subst hcb
        have had : adDedup (c :: c :: t) = adDedup (c :: t) := by
          simp [adDedup]
        rw [had]
        have h1 : Rrel (stepG sc pairs T (stepG sc pairs T st c) c)
            (stepG sc pairs T st c) := step_step sc pairs T st c
        have h2 : Rrel (runG sc pairs T (stepG sc pairs T (stepG sc pairs T st c) c) t)
            (runG sc pairs T (stepG sc pairs T st c) t) :=
          runG_congr sc pairs T t h1
        have h3 : runG sc pairs T st (c :: c :: t) =
            runG sc pairs T (stepG sc pairs T (stepG sc pairs T st c) c) t := by
          simp only [runG, List.foldl_cons]
        have h4 : runG sc pairs T st (c :: t) =
            runG sc pairs T (stepG sc pairs T st c) t := by
          simp only [runG, List.foldl_cons]
        rw [h3]
        have h5 := ih st
        rw [h4] at h5
        exact Rrel_trans h2 h5
      · have had : adDedup (c :: b :: t) = c :: adDedup (b :: t) := by
          simp [adDedup, hcb]
        rw [had]
        have h3 : runG sc pairs T st (c :: b :: t) =
            runG sc pairs T (stepG sc pairs T st c) (b :: t) := by
          simp only [runG, List.foldl_cons]
        have h4 : runG sc pairs T st (c :: adDedup (b :: t)) =
            runG sc pairs T (stepG sc pairs T st c) (adDedup (b :: t)) := by
          simp only [runG, List.foldl_cons]
        rw [h3, h4]
        exact ih (stepG sc pairs T st c)

theorem mem_adDedup {x : String} : ∀ {l : List String}, x ∈ adDedup l ↔ x ∈ l := by
  intro l
  induction l with
  | nil => simp [adDedup]
  | cons c cs ih =>
    cases cs with
    | nil => simp [adDedup]
    | cons b t =>
      by_cases hcb : c = b
      · subst hcb
        rw [show adDedup (c :: c :: t) = adDedup (c :: t) by simp [adDedup]]
        rw [ih]
        simp [List.mem_cons]
      · rw [show adDedup (c :: b :: t) = c :: adDedup (b :: t) by
          simp [adDedup, hcb]]
        simp only [List.mem_cons, ih]

theorem adDedup_sublist : ∀ (l : List String), List.Sublist (adDedup l) l := by
  intro l
  induction l with
  | nil => simp [adDedup]
  | cons c cs ih =>
    cases cs with
    | nil => simp [adDedup]
    | cons b t =>
      by_cases hcb : c = b
      · rw [show adDedup (c :: b :: t) = adDedup (b :: t) by simp [adDedup, hcb]]
        exact List.Sublist.cons c ih
      · rw [show adDedup (c :: b :: t) = c :: adDedup (b :: t) by
          simp [adDedup, hcb]]
        exact List.Sublist.cons₂ c ih

theorem adDedup_sorted {l : List String} (h : List.Sorted (· ≤ ·) l) :
    List.Sorted (· ≤ ·) (adDedup l) :=
  List.Pairwise.sublist (adDedup_sublist l) h

theorem adDedup_nodup : ∀ {l : List String}, List.Sorted (· ≤ ·) l →
    (adDedup l).Nodup := by
  intro l
  induction l with
  | nil => intro _; simp [adDedup]
  | cons c cs ih =>
    intro h
    cases cs with
    | nil => simp [adDedup]
    | cons b t =>
      have htail : List.Sorted (· ≤ ·) (b :: t) := h.of_cons
      by_cases hcb : c = b
      · rw [show adDedup (c :: b :: t) = adDedup (b :: t) by simp [adDedup, hcb]]
        exact ih htail
      · rw [show adDedup (c :: b :: t) = c :: adDedup (b :: t) by
          simp [adDedup, hcb]]
        refine List.Nodup.cons ?_ (ih htail)
        intro hmem
        have hmem2 : c ∈ b :: t := mem_adDedup.mp hmem
        rcases List.mem_cons.mp hmem2 with hh | hh
        · exact hcb hh
        · have hcb2 : c ≤ b := List.rel_of_sorted_cons h b (List.mem_cons_self b t)
          have hbc : b ≤ c := List.rel_of_sorted_cons htail c hh
          exact hcb (le_antisymm hcb2 hbc)

/-- Two sorted duplicate-free string lists with the same members are equal. -/
theorem sorted_nodup_ext : ∀ {l1 l2 : List String},
    List.Sorted (· ≤ ·) l1 → List.Sorted (· ≤ ·) l2 →
    l1.Nodup → l2.Nodup → (∀ x, x ∈ l1 ↔ x ∈ l2) → l1 = l2 := by
  intro l1
  induction l1 with
  | nil =>
    intro l2 _ _ _ _ hm
    cases l2 with
    | nil => rfl
    | cons b t2 => exact absurd ((hm b).mpr (List.mem_cons_self b t2)) (by simp)
  | cons a t1 ih =>
    intro l2 hs1 hs2 hn1 hn2 hm
    cases l2 with
    | nil => exact absurd ((hm a).mp (List.mem_cons_self a t1)) (by simp)
    | cons b t2 =>
      have hab : a = b := by
        by_contra hne
        have ha2 : a ∈ b :: t2 := (hm a).mp (List.mem_cons_self a t1)
        have hb1 : b ∈ a :: t1 := (hm b).mpr (List.mem_cons_self b t2)
        have hat2 : a ∈ t2 := by
          rcases List.mem_cons.mp ha2 with hh | hh
          · exact absurd hh hne
          · exact hh
        have hbt1 : b ∈ t1 := by
          rcases List.mem_cons.mp hb1 with hh | hh
          · exact absurd hh.symm hne
          · exact hh
        have h1 : a ≤ b := List.rel_of_sorted_cons hs1 b hbt1
        have h2 : b ≤ a := List.rel_of_sorted_cons hs2 a hat2
        exact hne (le_antisymm h1 h2)
      subst hab
      have hmt : ∀ x, x ∈ t1 ↔ x ∈ t2 := by
        intro x
        constructor
        · intro hx
          have hx2 : x ∈ a :: t2 := (hm x).mp (List.mem_cons_of_mem a hx)
          rcases List.mem_cons.mp hx2 with rfl | hh
          · exact absurd hx (List.Nodup.not_mem hn1)
          · exact hh
        · intro hx
          have hx1 : x ∈ a :: t1 := (hm x).mpr (List.mem_cons_of_mem a hx)
          rcases List.mem_cons.mp hx1 with rfl | hh
          · exact absurd hx (List.Nodup.not_mem hn2)
          · exact hh
      rw [ih hs1.of_cons hs2.of_cons (List.Nodup.of_cons hn1)
        (List.Nodup.of_cons hn2) hmt]

/-! ### Invariants of the clustering loop on a duplicate-free sorted run -/

theorem isProtected_self {pairs : List (String × String)}
    (hp : ∀ p ∈ pairs, p.1 ≠ p.2) (a : String) :
    isProtected pairs a a = false := by
  simp only [isProtected, decide_eq_false_iff_not]
  rintro (h | h) <;> exact hp _ h rfl

theorem good_init (pairs : List (String × String)) : Good pairs ⟨[], []⟩ := by
  constructor <;> intro x hx <;> simp at hx

theorem stepG_good (sc : String → String → ℚ) (pairs : List (String × String))
    (T : ℚ) {st : ClusterState} (n : String)
    (hg : Good pairs st) (hp : ∀ p ∈ pairs, p.1 ≠ p.2)
    (hfresh : ∀ k ∈ akeys st.amap, k < n) :
    Good pairs (stepG sc pairs T st n) ∧
      akeys (stepG sc pairs T st n).amap = akeys st.amap ++ [n] := by
  have hnk : n ∉ akeys st.amap := fun h => lt_irrefl n (hfresh n h)
  have hselfmem : n ∈ akeys (st.amap ++ [(n, n)]) := by
    rw [akeys_append]
    exact List.mem_append_right _ (List.mem_cons_self _ _)
  by_cases hs : st.canon = []
  · rw [stepG_nil sc pairs T st n hs, dinsert_fresh hnk]
    refine ⟨⟨?_, ?_, ?_, ?_, ?_⟩, by rw [akeys_append]; rfl⟩
    · intro c hc
      have hc2 : c = n := by simpa using hc
      subst hc2
      rw [alookup_append_right hnk]
      simp [alookup]
    · intro p hmem
      rcases List.mem_append.mp hmem with hmem | hmem
      · exact absurd (hs ▸ hg.val_canon p hmem) (List.not_mem_nil _)
      · have hp2 : p = (n, n) := by simpa using hmem
        subst hp2
        simp
    · intro p hmem
      rcases List.mem_append.mp hmem with hmem | hmem
      · exact hg.val_le p hmem
      · have hp2 : p = (n, n) := by simpa using hmem
        subst hp2
        exact le_refl n
    · intro c hc
      have hc2 : c = n := by simpa using hc
      subst hc2
      exact hselfmem
    · intro p hmem
      rcases List.mem_append.mp hmem with hmem | hmem
      · exact hg.not_prot p hmem
      · have hp2 : p = (n, n) := by simpa using hmem
        subst hp2
        exact isProtected_self hp n
  · rcases hsome : extractOne sc n st.canon with _ | ⟨b, sq⟩
    · exact absurd ((extractOne_eq_none sc n st.canon).mp hsome) hs
    have hbmem : b ∈ st.canon := (extractOne_mem hsome).1
    rw [stepG_cons sc pairs T st n b sq hs hsome]
    by_cases hcond : T ≤ sq ∧ isProtected pairs n b = false
    · rw [if_pos hcond, dinsert_fresh hnk]
      refine ⟨⟨?_, ?_, ?_, ?_, ?_⟩, by rw [akeys_append]; rfl⟩
      · intro c hc
        exact alookup_append_left (hg.canon_self c hc)
      · intro p hmem
        rcases List.mem_append.mp hmem with hmem | hmem
        · exact hg.val_canon p hmem
        · have hp2 : p = (n, b) := by simpa using hmem
          subst hp2
          exact hbmem
      · intro p hmem
        rcases List.mem_append.mp hmem with hmem | hmem
        · exact hg.val_le p hmem
        · have hp2 : p = (n, b) := by simpa using hmem
          subst hp2
          exact le_of_lt (hfresh b (hg.canon_keys b hbmem))
      · intro c hc
        rw [akeys_append]
        exact List.mem_append_left _ (hg.canon_keys c hc)
      · intro p hmem
        rcases List.mem_append.mp hmem with hmem | hmem
        · exact hg.not_prot p hmem
        · have hp2 : p = (n, b) := by simpa using hmem
          subst hp2
          exact hcond.2
    · rw [if_neg hcond, dinsert_fresh hnk]
      refine ⟨⟨?_, ?_, ?_, ?_, ?_⟩, by rw [akeys_append]; rfl⟩
      · intro c hc
        rcases List.mem_append.mp hc with hc | hc
        · exact alookup_append_left (hg.canon_self c hc)
        · have hc2 : c = n := by simpa using hc
          subst hc2
          rw [alookup_append_right hnk]
          simp [alookup]
      · intro p hmem
        rcases List.mem_append.mp hmem with hmem | hmem
        · exact List.mem_append_left _ (hg.val_canon p hmem)
        · have hp2 : p = (n, n) := by simpa using hmem
          subst hp2
          exact List.mem_append_right _ (List.mem_cons_self _ _)
      · intro p hmem
        rcases List.mem_append.mp hmem with hmem | hmem
        · exact hg.val_le p hmem
        · have hp2 : p = (n, n) := by simpa using hmem
          subst hp2
          exact le_refl n
      · intro c hc
        rcases List.mem_append.mp hc with hc | hc
        · rw [akeys_append]
          exact List.mem_append_left _ (hg.canon_keys c hc)
        · have hc2 : c = n := by simpa using hc
          subst hc2
          exact hselfmem
      · intro p hmem
        rcases List.mem_append.mp hmem with hmem | hmem
        · exact hg.not_prot p hmem
        · have hp2 : p = (n, n) := by simpa using hmem
          subst hp2
          exact isProtected_self hp n

theorem runG_good (sc : String → String → ℚ) (pairs : List (String × String))
    (T : ℚ) (hp : ∀ p ∈ pairs, p.1 ≠ p.2) :
    ∀ (l : List String) (st : ClusterState), Good pairs st →
      (∀ k ∈ akeys st.amap, ∀ n ∈ l, k < n) → List.Pairwise (· < ·) l →
      Good pairs (runG sc pairs T st l) ∧
        akeys (runG sc pairs T st l).amap = akeys st.amap ++ l := by
  intro l
  induction l with
  | nil => intro st hg _ _; exact ⟨hg, by simp [runG]⟩
  | cons c cs ih =>
    intro st hg hfresh hpw
    obtain ⟨hg1, hk1⟩ := stepG_good sc pairs T c hg hp
      (fun k hk => hfresh k hk c (List.mem_cons_self c cs))
    have hfresh2 : ∀ k ∈ akeys (stepG sc pairs T st c).amap, ∀ n ∈ cs, k < n := by
      intro k hk n hn
      rw [hk1] at hk
      rcases List.mem_append.mp hk with hk | hk
      · exact hfresh k hk n (List.mem_cons_of_mem c hn)
      · have hkc : k = c := by simpa using hk
        subst hkc
        exact (List.pairwise_cons.mp hpw).1 n hn
    obtain ⟨hg2, hk2⟩ := ih (stepG sc pairs T st c) hg1 hfresh2
      (List.pairwise_cons.mp hpw).2
    constructor
    · simpa only [runG, List.foldl_cons] using hg2
    · have hr : runG sc pairs T st (c :: cs) =
          runG sc pairs T (stepG sc pairs T st c) cs := by
        simp only [runG, List.foldl_cons]
      rw [hr, hk2, hk1]
      simp

/-! ### The normalized run underlying `buildG` -/

theorem sortStr_sorted (l : List String) : List.Sorted (· ≤ ·) (sortStr l) :=
  List.sorted_insertionSort _ l

theorem mem_sortStr {x : String} {l : List String} : x ∈ sortStr l ↔ x ∈ l :=
  (List.perm_insertionSort _ l).mem_iff

theorem adSort_pairwise_lt (l : List String) :
    List.Pairwise (· < ·) (adSort l) :=
  List.Sorted.lt_of_le (adDedup_sorted (sortStr_sorted l))
    (adDedup_nodup (sortStr_sorted l))

theorem mem_adSort {x : String} {l : List String} : x ∈ adSort l ↔ x ∈ l := by
  rw [adSort, mem_adDedup, mem_sortStr]

/-- The alias map returned by `buildG` equals the alias map of the
duplicate-free sorted run. -/
theorem buildG_amap_norm (sc : String → String → ℚ)
    (pairs : List (String × String)) (tn : List String) (T : ℚ) :
    (buildG sc pairs tn T).2 = (runG sc pairs T ⟨[], []⟩ (adSort tn)).amap :=
  (runG_adDedup sc pairs T (sortStr tn) ⟨[], []⟩).1

/-- The invariants hold of the normalized run, whose keys are exactly the
distinct sorted input names. -/
theorem buildG_good (sc : String → String → ℚ) (pairs : List (String × String))
    (tn : List String) (T : ℚ) (hp : ∀ p ∈ pairs, p.1 ≠ p.2) :
    Good pairs (runG sc pairs T ⟨[], []⟩ (adSort tn)) ∧
      akeys (runG sc pairs T ⟨[], []⟩ (adSort tn)).amap = adSort tn := by
  obtain ⟨h1, h2⟩ := runG_good sc pairs T hp (adSort tn) ⟨[], []⟩
    (good_init pairs) (by intro k hk; simp [akeys] at hk) (adSort_pairwise_lt tn)
  exact ⟨h1, by simpa [akeys] using h2⟩

/-! ### Facts about the embedded scorer and degenerate inputs -/

theorem sim_le_100 (d t : ℚ) (hd : 0 ≤ d) (ht : 0 ≤ t) :
    100 * (1 - d / t) ≤ 100 := by
  have h := div_nonneg hd ht
  linarith

theorem tokenSetScore_le_100 (a b : String) : tokenSetScore a b ≤ 100 := by
  simp only [tokenSetScore]
  split
  · norm_num
  · split
    · norm_num
    · apply max_le
      · exact sim_le_100 _ _ (by positivity) (by positivity)
      · apply max_le
        · exact sim_le_100 _ _ (by positivity) (by positivity)
        · exact sim_le_100 _ _ (by positivity) (by positivity)

theorem splitWsGo_all_ws : ∀ {l : List Char},
    (∀ c ∈ l, c.isWhitespace = true) → splitWsGo l [] = [] := by
  intro l
  induction l with
  | nil => intro _; simp [splitWsGo]
  | cons c cs ih =>
    intro h
    have hc := h c (List.mem_cons_self _ _)
    simp only [splitWsGo, hc, if_true]
    exact ih (fun x hx => h x (List.mem_cons_of_mem _ hx))

theorem isBlank_tokenize {s : String} (h : isBlank s = true) : tokenize s = [] := by
  rw [tokenize, splitWsGo_all_ws]
  · rfl
  · intro c hc
    exact List.all_eq_true.mp h c hc

theorem tokenSetScore_blank {s : String} (h : isBlank s = true) (x : String) :
    tokenSetScore s x = 0 := by
  have ht : tokenize s = [] := isBlank_tokenize h
  simp [tokenSetScore, ht]

theorem stepG_above (pairs : List (String × String)) (T : ℚ) (hT : 100 < T)
    (st : ClusterState) (n : String) :
    stepG tokenSetScore pairs T st n = ⟨st.canon ++ [n], dinsert st.amap n n⟩ := by
  by_cases hs : st.canon = []
  · rw [stepG_nil _ _ _ _ _ hs, hs]
    rfl
  · rcases hsome : extractOne tokenSetScore n st.canon with _ | ⟨b, sq⟩
    · exact absurd ((extractOne_eq_none tokenSetScore n st.canon).mp hsome) hs
    rw [stepG_cons _ _ _ _ _ _ _ hs hsome]
    have hsq : sq ≤ 100 := by
      rw [(extractOne_mem hsome).2]
      exact tokenSetScore_le_100 n b
    rw [if_neg]
    rintro ⟨h1, _⟩
    linarith

theorem runG_above (pairs : List (String × String)) (T : ℚ) (hT : 100 < T) :
    ∀ (l : List String) (st : ClusterState),
      (∀ n ∈ l, n ∉ akeys st.amap) → l.Nodup →
      avalues (runG tokenSetScore pairs T st l).amap = avalues st.amap ++ l := by
  intro l
  induction l with
  | nil => intro st _ _; simp [runG]
  | cons c cs ih =>
    intro st hfresh hnodup
    have hstep := stepG_above pairs T hT st c
    have hins : dinsert st.amap c c = st.amap ++ [(c, c)] :=
      dinsert_fresh (hfresh c (List.mem_cons_self _ _))
    have hfresh2 : ∀ n ∈ cs, n ∉ akeys (stepG tokenSetScore pairs T st c).amap := by
      intro n hn hmem
      rw [hstep] at hmem
      simp only [hins, akeys_append] at hmem
      rcases List.mem_append.mp hmem with hmem | hmem
      · exact hfresh n (List.mem_cons_of_mem _ hn) hmem
      · have : n = c := by simpa [akeys] using hmem
        subst this
        exact (List.nodup_cons.mp hnodup).1 hn
    have hrw : runG tokenSetScore pairs T st (c :: cs) =
        runG tokenSetScore pairs T (stepG tokenSetScore pairs T st c) cs := by
      simp only [runG, List.foldl_cons]
    rw [hrw, ih (stepG tokenSetScore pairs T st c) hfresh2
      (List.nodup_cons.mp hnodup).2, hstep]
    simp only [hins, avalues_append]
    simp [avalues]

theorem sortedDedup_length (l : List String) :
    (sortedDedup l).length = l.toFinset.card := by
  rw [sortedDedup, List.card_toFinset]
  exact (List.perm_insertionSort _ _).length_eq

theorem mem_sortedDedup {x : String} {l : List String} :
    x ∈ sortedDedup l ↔ x ∈ l := by
  rw [sortedDedup, mem_sortStr, List.mem_dedup]

/-! ### Characterization of the resolver and protection inertness -/

theorem canonMapG_str (sc : String → String → ℚ) (V : List String) (T : ℚ)
    (s : String) (hV : ¬ V = []) (hb : isBlank s = false) {b : String} {sq : ℚ}
    (hext : extractOne sc s V = some (b, sq)) :
    canonMapG sc V T (PyVal.pstr s) =
      (if T ≤ sq then PyVal.pstr b else PyVal.pstr s) := by
  simp only [canonMapG, if_neg hV, hb, Bool.false_eq_true, if_false, hext]

theorem canonMapG_blank (sc : String → String → ℚ) (V : List String) (T : ℚ)
    (s : String) (hb : isBlank s = true) :
    canonMapG sc V T (PyVal.pstr s) = PyVal.pstr s := by
  by_cases hV : V = []
  · simp [canonMapG, hV]
  · simp only [canonMapG, if_neg hV, hb, if_true]

theorem prot_pairs_ne : ∀ p ∈ protect_pairs, p.1 ≠ p.2 := by
  decide

theorem isProtected_outside {a b : String}
    (ha : a ≠ "Paris" ∧ a ≠ "Paris FC" ∧ a ≠ "Paris Saint-Germain")
    (hb : b ≠ "Paris" ∧ b ≠ "Paris FC" ∧ b ≠ "Paris Saint-Germain") :
    isProtected protect_pairs a b = false := by
  simp only [isProtected, protect_pairs, decide_eq_false_iff_not]
  rintro (h | h)
  · rcases List.mem_cons.mp h with h1 | h1
    · exact ha.2.1 (congrArg Prod.fst h1)
    · rcases List.mem_cons.mp h1 with h2 | h2
      · exact ha.1 (congrArg Prod.fst h2)
      · simp at h2
  · rcases List.mem_cons.mp h with h1 | h1
    · exact hb.2.1 (congrArg Prod.fst h1)
    · rcases List.mem_cons.mp h1 with h2 | h2
      · exact hb.1 (congrArg Prod.fst h2)
      · simp at h2

theorem stepG_canon_sub (sc : String → String → ℚ)
    (pairs : List (String × String)) (T : ℚ) (st : ClusterState) (n : String) :
    ∀ x ∈ (stepG sc pairs T st n).canon, x ∈ st.canon ∨ x = n := by
  intro x hx
  by_cases hs : st.canon = []
  · rw [stepG_nil _ _ _ _ _ hs] at hx
    right
    simpa using hx
  · rcases hsome : extractOne sc n st.canon with _ | ⟨b, sq⟩
    · exact absurd ((extractOne_eq_none sc n st.canon).mp hsome) hs
    rw [stepG_cons _ _ _ _ _ _ _ hs hsome] at hx
    by_cases hcond : T ≤ sq ∧ isProtected pairs n b = false
    · rw [if_pos hcond] at hx
      exact Or.inl hx
    · rw [if_neg hcond] at hx
      rcases List.mem_append.mp hx with h | h
      · exact Or.inl h
      · right
        simpa using h

theorem runG_pairs_inert (sc : String → String → ℚ) (T : ℚ) :
    ∀ (l : List String) (st : ClusterState),
      (∀ x ∈ l, x ≠ "Paris" ∧ x ≠ "Paris FC" ∧ x ≠ "Paris Saint-Germain") →
      (∀ x ∈ st.canon, x ≠ "Paris" ∧ x ≠ "Paris FC" ∧ x ≠ "Paris Saint-Germain") →
      runG sc protect_pairs T st l = runG sc [] T st l := by
  intro l
  induction l with
  | nil => intro st _ _; rfl
  | cons c cs ih =>
    intro st hl hcanon
    have hstep : stepG sc protect_pairs T st c = stepG sc [] T st c := by
      by_cases hs : st.canon = []
      · rw [stepG_nil _ _ _ _ _ hs, stepG_nil _ _ _ _ _ hs]
      · rcases hsome : extractOne sc c st.canon with _ | ⟨b, sq⟩
        · exact absurd ((extractOne_eq_none sc c st.canon).mp hsome) hs
        rw [stepG_cons _ _ _ _ _ _ _ hs hsome, stepG_cons _ _ _ _ _ _ _ hs hsome]
        have hbn := hcanon b (extractOne_mem hsome).1
        have hcn := hl c (List.mem_cons_self _ _)
        rw [isProtected_outside hcn hbn,
          show isProtected [] c b = false from rfl]
    have hcanon2 : ∀ x ∈ (stepG sc [] T st c).canon,
        x ≠ "Paris" ∧ x ≠ "Paris FC" ∧ x ≠ "Paris Saint-Germain" := by
      intro x hx
      rcases stepG_canon_sub sc [] T st c x hx with h | h
      · exact hcanon x h
      · subst h
        exact hl x (List.mem_cons_self _ _)
    have hrw1 : runG sc protect_pairs T st (c :: cs) =
        runG sc protect_pairs T (stepG sc protect_pairs T st c) cs := by
      simp only [runG, List.foldl_cons]
    have hrw2 : runG sc [] T st (c :: cs) =
        runG sc [] T (stepG sc [] T st c) cs := by
      simp only [runG, List.foldl_cons]
    rw [hrw1, hrw2, hstep]
    exact ih (stepG sc [] T st c) (fun x hx => hl x (List.mem_cons_of_mem _ hx))
      hcanon2

/-! ### Claim theorems -/

/-- C1: for every list of team-name strings and every threshold, the alias
map returned by `build_alias_clusters` satisfies the fixed-point property:
every value in its range is itself a key that maps to itself. -/
theorem alias_map_fixed_point (tn : List String) (T : ℚ) :
    ∀ v ∈ avalues (build_alias_clusters tn T).2,
      alookup v (build_alias_clusters tn T).2 = some v := by
  intro v hv
  have hnorm : (build_alias_clusters tn T).2 =
      (runG tokenSetScore protect_pairs T ⟨[], []⟩ (adSort tn)).amap :=
    buildG_amap_norm tokenSetScore protect_pairs tn T
  rw [hnorm] at hv ⊢
  obtain ⟨hg, _⟩ := buildG_good tokenSetScore protect_pairs tn T prot_pairs_ne
  obtain ⟨p, hp, rfl⟩ := mem_avalues.mp hv
  exact hg.canon_self p.2 (hg.val_canon p hp)

theorem alias_map_fixed_point_witness :
    "a" ∈ avalues (build_alias_clusters ["a", "a b"] 86).2 ∧
      alookup "a" (build_alias_clusters ["a", "a b"] 86).2 = some "a" :=
  ⟨by decide!, alias_map_fixed_point ["a", "a b"] 86 "a" (by decide!)⟩

/-- C2: for every input list, threshold, and pair `(a, b)` of the protected
set with both members in the input, the returned alias map maps neither
`a` to `b` nor `b` to `a`. -/
theorem protected_pairs_never_merged (tn : List String) (T : ℚ) (a b : String)
    (hab : (a, b) ∈ protect_pairs) (_ : a ∈ tn) (_ : b ∈ tn) :
    alookup a (build_alias_clusters tn T).2 ≠ some b ∧
      alookup b (build_alias_clusters tn T).2 ≠ some a := by
  have hnorm : (build_alias_clusters tn T).2 =
      (runG tokenSetScore protect_pairs T ⟨[], []⟩ (adSort tn)).amap :=
    buildG_amap_norm tokenSetScore protect_pairs tn T
  obtain ⟨hg, _⟩ := buildG_good tokenSetScore protect_pairs tn T prot_pairs_ne
  constructor
  · intro hcontra
    rw [hnorm] at hcontra
    have hmem := alookup_mem hcontra
    have hfalse := hg.not_prot (a, b) hmem
    rw [isProtected, decide_eq_false_iff_not] at hfalse
    exact hfalse (Or.inl hab)
  · intro hcontra
    rw [hnorm] at hcontra
    have hmem := alookup_mem hcontra
    have hfalse := hg.not_prot (b, a) hmem
    rw [isProtected, decide_eq_false_iff_not] at hfalse
    exact hfalse (Or.inr hab)

theorem protected_pairs_never_merged_witness :
    alookup "Paris FC" (build_alias_clusters
      ["Paris FC", "Paris Saint-Germain"] 70).2 ≠ some "Paris Saint-Germain" ∧
    alookup "Paris Saint-Germain" (build_alias_clusters
      ["Paris FC", "Paris Saint-Germain"] 70).2 ≠ some "Paris FC" :=
  protected_pairs_never_merged ["Paris FC", "Paris Saint-Germain"] 70
    "Paris FC" "Paris Saint-Germain" (by decide) (by decide) (by decide)

/-- C4: every input name is a key of the returned alias map exactly once
(and every key is an input name), and the returned canonical set is the
sorted set of distinct values of the map's range. -/
theorem alias_map_totality (tn : List String) (T : ℚ) :
    (∀ n, n ∈ tn → (akeys (build_alias_clusters tn T).2).count n = 1) ∧
      (∀ n, n ∈ akeys (build_alias_clusters tn T).2 → n ∈ tn) ∧
      (build_alias_clusters tn T).1 =
        sortedDedup (avalues (build_alias_clusters tn T).2) := by
  have hnorm : (build_alias_clusters tn T).2 =
      (runG tokenSetScore protect_pairs T ⟨[], []⟩ (adSort tn)).amap :=
    buildG_amap_norm tokenSetScore protect_pairs tn T
  obtain ⟨_, hkeys⟩ := buildG_good tokenSetScore protect_pairs tn T prot_pairs_ne
  refine ⟨?_, ?_, rfl⟩
  · intro n hn
    rw [hnorm, hkeys]
    exact List.count_eq_one_of_mem (adDedup_nodup (sortStr_sorted tn))
      (mem_adSort.mpr hn)
  · intro n hn
    rw [hnorm, hkeys] at hn
    exact mem_adSort.mp hn

theorem alias_map_totality_witness :
    (akeys (build_alias_clusters ["x", "y"] 86).2).count "x" = 1 :=
  (alias_map_totality ["x", "y"] 86).1 "x" (by decide)

/-- C9: the alias map always maps a name to a lexicographically
smaller-or-equal name, and every canonical entry maps to itself and is a
lower bound of its cluster (hence its lexicographically smallest member). -/
theorem alias_map_maps_down (tn : List String) (T : ℚ) :
    (∀ k v, alookup k (build_alias_clusters tn T).2 = some v → v ≤ k) ∧
      (∀ c, c ∈ (build_alias_clusters tn T).1 →
        alookup c (build_alias_clusters tn T).2 = some c ∧
          ∀ k, alookup k (build_alias_clusters tn T).2 = some c → c ≤ k) := by
  have hnorm : (build_alias_clusters tn T).2 =
      (runG tokenSetScore protect_pairs T ⟨[], []⟩ (adSort tn)).amap :=
    buildG_amap_norm tokenSetScore protect_pairs tn T
  obtain ⟨hg, _⟩ := buildG_good tokenSetScore protect_pairs tn T prot_pairs_ne
  have hdown : ∀ k v, alookup k (build_alias_clusters tn T).2 = some v → v ≤ k := by
    intro k v hl
    rw [hnorm] at hl
    exact hg.val_le (k, v) (alookup_mem hl)
  refine ⟨hdown, ?_⟩
  intro c hc
  have hc2 : c ∈ avalues (build_alias_clusters tn T).2 := by
    have : (build_alias_clusters tn T).1 =
        sortedDedup (avalues (build_alias_clusters tn T).2) := rfl
    rw [this] at hc
    exact mem_sortedDedup.mp hc
  refine ⟨?_, fun k hk => hdown k c hk⟩
  rw [hnorm] at hc2 ⊢
  obtain ⟨p, hp, rfl⟩ := mem_avalues.mp hc2
  exact hg.canon_self p.2 (hg.val_canon p hp)

theorem alias_map_maps_down_witness :
    alookup "b a" (build_alias_clusters ["b a", "a b"] 86).2 = some "a b" ∧
      ("a b" : String) ≤ "b a" := by
  have hl : alookup "b a" (build_alias_clusters ["b a", "a b"] 86).2 =
      some "a b" := by decide!
  exact ⟨hl, (alias_map_maps_down ["b a", "a b"] 86).1 "b a" "a b" hl⟩

/-- C8: `build_alias_clusters` is deterministic and order-independent: two
input lists with the same set of names and the same threshold produce
identical canonical sets and alias maps. -/
theorem build_alias_clusters_set_deterministic (tn1 tn2 : List String) (T : ℚ)
    (h : ∀ n, n ∈ tn1 ↔ n ∈ tn2) :
    build_alias_clusters tn1 T = build_alias_clusters tn2 T := by
  have had : adSort tn1 = adSort tn2 := by
    apply sorted_nodup_ext (adDedup_sorted (sortStr_sorted tn1))
      (adDedup_sorted (sortStr_sorted tn2)) (adDedup_nodup (sortStr_sorted tn1))
      (adDedup_nodup (sortStr_sorted tn2))
    intro x
    rw [mem_adDedup, mem_sortStr, mem_adDedup, mem_sortStr]
    exact h x
  have h1 : (build_alias_clusters tn1 T).2 =
      (runG tokenSetScore protect_pairs T ⟨[], []⟩ (adSort tn1)).amap :=
    buildG_amap_norm tokenSetScore protect_pairs tn1 T
  have h2 : (build_alias_clusters tn2 T).2 =
      (runG tokenSetScore protect_pairs T ⟨[], []⟩ (adSort tn2)).amap :=
    buildG_amap_norm tokenSetScore protect_pairs tn2 T
  have hm : (build_alias_clusters tn1 T).2 = (build_alias_clusters tn2 T).2 := by
    rw [h1, h2, had]
  have hfst : (build_alias_clusters tn1 T).1 = (build_alias_clusters tn2 T).1 := by
    have e1 : (build_alias_clusters tn1 T).1 =
        sortedDedup (avalues (build_alias_clusters tn1 T).2) := rfl
    have e2 : (build_alias_clusters tn2 T).1 =
        sortedDedup (avalues (build_alias_clusters tn2 T).2) := rfl
    rw [e1, e2, hm]
  exact Prod.ext hfst hm

theorem build_alias_clusters_set_deterministic_witness :
    build_alias_clusters ["b", "a", "a"] 86 = build_alias_clusters ["a", "b"] 86 := by
  apply build_alias_clusters_set_deterministic
  intro n
  simp [List.mem_cons]
  tauto

/-- C10: the protected-pair set is exactly the two hard-coded Paris pairs,
and on inputs avoiding the three Paris strings the clustering output equals
the same greedy clustering with an empty protected set. -/
theorem protected_pairs_constant_and_inert :
    protect_pairs = [("Paris FC", "Paris Saint-Germain"),
      ("Paris", "Paris Saint-Germain")] ∧
    ∀ (tn : List String) (T : ℚ), "Paris" ∉ tn → "Paris FC" ∉ tn →
      "Paris Saint-Germain" ∉ tn →
      build_alias_clusters tn T = buildG tokenSetScore [] tn T := by
  refine ⟨rfl, ?_⟩
  intro tn T h1 h2 h3
  have hrun : runG tokenSetScore protect_pairs T ⟨[], []⟩ (sortStr tn) =
      runG tokenSetScore [] T ⟨[], []⟩ (sortStr tn) := by
    apply runG_pairs_inert
    · intro x hx
      have hx2 : x ∈ tn := mem_sortStr.mp hx
      exact ⟨fun hh => h1 (hh ▸ hx2), fun hh => h2 (hh ▸ hx2),
        fun hh => h3 (hh ▸ hx2)⟩
    · intro x hx
      simp at hx
  have e1 : build_alias_clusters tn T =
      (sortedDedup (avalues (runG tokenSetScore protect_pairs T ⟨[], []⟩
        (sortStr tn)).amap),
        (runG tokenSetScore protect_pairs T ⟨[], []⟩ (sortStr tn)).amap) := rfl
  have e2 : buildG tokenSetScore [] tn T =
      (sortedDedup (avalues (runG tokenSetScore [] T ⟨[], []⟩
        (sortStr tn)).amap),
        (runG tokenSetScore [] T ⟨[], []⟩ (sortStr tn)).amap) := rfl
  rw [e1, e2, hrun]

theorem protected_pairs_constant_and_inert_witness :
    build_alias_clusters ["Arsenal", "Chelsea"] 86 =
      buildG tokenSetScore [] ["Arsenal", "Chelsea"] 86 :=
  protected_pairs_constant_and_inert.2 ["Arsenal", "Chelsea"] 86
    (by decide) (by decide) (by decide)

/-- C3 counterexample: with the fixed input set below, thresholds 86 ≤ 95,
the clustering at threshold 95 has strictly fewer distinct canonical entries
(2) than at threshold 86 (3), refuting threshold monotonicity.  At 86 the
name "zzzzzzzzzz" merges into "zzzzzzzzzy" (score 90) so the two longer
names score too low against the remaining canonical and stay separate; at 95
"zzzzzzzzzz" stays canonical and absorbs both longer names (token-subset
score 100). -/
theorem threshold_monotonicity_counterexample :
    (86 : ℚ) ≤ 95 ∧
      (build_alias_clusters ["zzzzzzzzzy", "zzzzzzzzzz", "zzzzzzzzzz qqqqqqqq",
        "zzzzzzzzzz rrrrrrrr"] 95).1.length <
      (build_alias_clusters ["zzzzzzzzzy", "zzzzzzzzzz", "zzzzzzzzzz qqqqqqqq",
        "zzzzzzzzzz rrrrrrrr"] 86).1.length := by
  constructor
  · norm_num
  · decide!

/-- C3 amended: raising the threshold can strictly decrease the number of
distinct canonical entries, so monotonicity only survives in the boundary
form: when a threshold T2 exceeds the scorer's maximal score 100, the
canonical count at T2 equals the number of distinct input names, and this
count bounds the count at every threshold T1 (no ordering between T1 and T2
required). -/
theorem threshold_monotonicity_amended (tn : List String) (T1 T2 : ℚ)
    (hT2 : 100 < T2) :
    (build_alias_clusters tn T2).1.length = tn.toFinset.card ∧
      (build_alias_clusters tn T1).1.length ≤
        (build_alias_clusters tn T2).1.length := by
  have hn2 : (build_alias_clusters tn T2).2 =
      (runG tokenSetScore protect_pairs T2 ⟨[], []⟩ (adSort tn)).amap :=
    buildG_amap_norm tokenSetScore protect_pairs tn T2
  have hn1 : (build_alias_clusters tn T1).2 =
      (runG tokenSetScore protect_pairs T1 ⟨[], []⟩ (adSort tn)).amap :=
    buildG_amap_norm tokenSetScore protect_pairs tn T1
  obtain ⟨hg1, hk1⟩ := buildG_good tokenSetScore protect_pairs tn T1 prot_pairs_ne
  have hv2 : avalues (runG tokenSetScore protect_pairs T2 ⟨[], []⟩
      (adSort tn)).amap = adSort tn := by
    have h := runG_above protect_pairs T2 hT2 (adSort tn) ⟨[], []⟩
      (by intro n hn; simp [akeys]) (adDedup_nodup (sortStr_sorted tn))
    simpa [avalues] using h
  have e1 : (build_alias_clusters tn T1).1 =
      sortedDedup (avalues (build_alias_clusters tn T1).2) := rfl
  have e2 : (build_alias_clusters tn T2).1 =
      sortedDedup (avalues (build_alias_clusters tn T2).2) := rfl
  have hcount2 : (build_alias_clusters tn T2).1.length = tn.toFinset.card := by
    rw [e2, hn2, hv2, sortedDedup_length]
    congr 1
    ext x
    rw [List.mem_toFinset, List.mem_toFinset, mem_adSort]
  refine ⟨hcount2, ?_⟩
  rw [e1, hcount2, hn1, sortedDedup_length]
  have hsub : (avalues (runG tokenSetScore protect_pairs T1 ⟨[], []⟩
      (adSort tn)).amap).toFinset ⊆ tn.toFinset := by
    intro x hx
    rw [List.mem_toFinset] at hx ⊢
    obtain ⟨p, hp, rfl⟩ := mem_avalues.mp hx
    have hkey : p.2 ∈ akeys (runG tokenSetScore protect_pairs T1 ⟨[], []⟩
        (adSort tn)).amap :=
      hg1.canon_keys p.2 (hg1.val_canon p hp)
    rw [hk1] at hkey
    exact mem_adSort.mp hkey
  exact Finset.card_le_card hsub

theorem threshold_monotonicity_amended_witness :
    (build_alias_clusters ["a", "b"] 101).1.length =
        (["a", "b"] : List String).toFinset.card ∧
      (build_alias_clusters ["a", "b"] 120).1.length ≤
        (build_alias_clusters ["a", "b"] 101).1.length :=
  threshold_monotonicity_amended ["a", "b"] 120 101 (by norm_num)

/-- C5 counterexample: a whitespace-only name is a non-empty string, but at
threshold 0 with vocabulary ["x"] the maximum-scoring entry "x" has score
0 ≥ 0, yet the resolver returns the name unchanged (the `name.strip()` guard
fires), contradicting the claimed contract for non-empty string names. -/
theorem resolve_whitespace_counterexample :
    (" " : String) ≠ "" ∧
      extractOne tokenSetScore " " ["x"] = some ("x", 0) ∧ ((0 : ℚ) ≤ 0) ∧
      make_canonical_mapper ["x"] 0 (PyVal.pstr " ") = PyVal.pstr " " ∧
      PyVal.pstr " " ≠ PyVal.pstr "x" := by
  refine ⟨by decide, by decide!, le_refl 0, by decide!, by decide⟩

/-- C5 amended: for a non-empty vocabulary and a name that has non-whitespace
content (or a positive threshold), the resolver scores the name against
every vocabulary entry, returns the first maximum-scoring entry when its
score reaches the threshold and the name unchanged otherwise; the result is
always a vocabulary entry or the original name. -/
theorem resolve_contract_amended (V : List String) (T : ℚ) (s : String)
    (hV : V ≠ []) (hs : isBlank s = false ∨ 0 < T) :
    ∃ b sq, extractOne tokenSetScore s V = some (b, sq) ∧ b ∈ V ∧
      sq = tokenSetScore s b ∧ (∀ x ∈ V, tokenSetScore s x ≤ sq) ∧
      make_canonical_mapper V T (PyVal.pstr s) =
        (if T ≤ sq then PyVal.pstr b else PyVal.pstr s) ∧
      ((make_canonical_mapper V T (PyVal.pstr s) = PyVal.pstr b ∧ b ∈ V) ∨
        make_canonical_mapper V T (PyVal.pstr s) = PyVal.pstr s) := by
  cases V with
  | nil => exact absurd rfl hV
  | cons c cs =>
    set bq := best1 tokenSetScore s (c, tokenSetScore s c) cs with hbq
    have hext2 : extractOne tokenSetScore s (c :: cs) = some (bq.1, bq.2) := by
      show some (best1 tokenSetScore s (c, tokenSetScore s c) cs) = some (bq.1, bq.2)
      rw [← hbq, Prod.mk.eta]
    have hmem : bq.1 ∈ c :: cs := by
      rcases best1_mem tokenSetScore s cs (c, tokenSetScore s c) with h | h
      · rw [← hbq] at h
        rw [h]
        exact List.mem_cons_self _ _
      · rw [← hbq] at h
        exact List.mem_cons_of_mem _ h
    have hsnd : bq.2 = tokenSetScore s bq.1 := by
      have h := best1_snd tokenSetScore s cs (c, tokenSetScore s c) rfl
      rw [← hbq] at h
      exact h
    have hmax : ∀ x ∈ c :: cs, tokenSetScore s x ≤ bq.2 := extractOne_le hext2
    have hmap : make_canonical_mapper (c :: cs) T (PyVal.pstr s) =
        (if T ≤ bq.2 then PyVal.pstr bq.1 else PyVal.pstr s) := by
      by_cases hb : isBlank s
      · rcases hs with h | hT0
        · rw [hb] at h
          exact absurd h (by simp)
        · have hzero : bq.2 = 0 := by
            rw [hsnd, tokenSetScore_blank hb bq.1]
          show canonMapG tokenSetScore (c :: cs) T (PyVal.pstr s) = _
          rw [canonMapG_blank tokenSetScore (c :: cs) T s hb, hzero,
            if_neg (not_le.mpr hT0)]
      · have hb2 : isBlank s = false := by
          cases hbb : isBlank s
          · rfl
          · exact absurd hbb hb
        show canonMapG tokenSetScore (c :: cs) T (PyVal.pstr s) = _
        exact canonMapG_str tokenSetScore (c :: cs) T s (by simp) hb2 hext2
    refine ⟨bq.1, bq.2, hext2, hmem, hsnd, hmax, hmap, ?_⟩
    by_cases hT : T ≤ bq.2
    · exact Or.inl ⟨by rw [hmap, if_pos hT], hmem⟩
    · exact Or.inr (by rw [hmap, if_neg hT])

theorem resolve_contract_amended_witness :
    ∃ b sq, extractOne tokenSetScore "aa" ["aa"] = some (b, sq) ∧ b ∈ ["aa"] ∧
      sq = tokenSetScore "aa" b ∧ (∀ x ∈ ["aa"], tokenSetScore "aa" x ≤ sq) ∧
      make_canonical_mapper ["aa"] 86 (PyVal.pstr "aa") =
        (if (86 : ℚ) ≤ sq then PyVal.pstr b else PyVal.pstr "aa") ∧
      ((make_canonical_mapper ["aa"] 86 (PyVal.pstr "aa") = PyVal.pstr b ∧
          b ∈ ["aa"]) ∨
        make_canonical_mapper ["aa"] 86 (PyVal.pstr "aa") = PyVal.pstr "aa") :=
  resolve_contract_amended ["aa"] 86 "aa" (by decide) (Or.inl (by decide))

/-- C6: the resolver is the identity and total on degenerate inputs: empty
vocabulary, non-string name (e.g. `None`), or empty/whitespace-only name all
return the name unchanged (the embedded resolver is a total function, so no
exception is possible). -/
theorem resolve_degenerate_identity (V : List String) (T : ℚ) (name : PyVal)
    (h : V = [] ∨ name = PyVal.pnone ∨
      ∃ s, name = PyVal.pstr s ∧ isBlank s = true) :
    make_canonical_mapper V T name = name := by
  rcases h with h | h | ⟨s, rfl, hb⟩
  · show canonMapG tokenSetScore V T name = name
    simp [canonMapG, h]
  · subst h
    show canonMapG tokenSetScore V T PyVal.pnone = PyVal.pnone
    by_cases hV : V = []
    · simp [canonMapG, hV]
    · simp [canonMapG, hV]
  · exact canonMapG_blank tokenSetScore V T s hb

theorem resolve_degenerate_identity_witness :
    make_canonical_mapper [] 86 (PyVal.pstr "Arsenal") = PyVal.pstr "Arsenal" :=
  resolve_degenerate_identity [] 86 (PyVal.pstr "Arsenal") (Or.inl rfl)

/-- C7 counterexample: the claim's scenario `inferTimezone("La Liga 2025")`
does not return the Madrid entry: the lowercased label "la liga 2025"
contains none of the table keys (the Spanish keys are "la-liga" and
"laliga"), so the code returns UTC. -/
theorem infer_timezone_la_liga_counterexample :
    detect_timezone (some "La Liga 2025") = "UTC" ∧
      ("UTC" : String) ≠ "Europe/Madrid" := by
  refine ⟨by decide!, by decide⟩

/-- C7 amended: timezone inference lowercases the label and returns the
timezone of the first table key occurring as a substring, defaulting to UTC
for a `None` or empty label or when no key matches; in particular
"La Liga 2025" matches no key and yields UTC, while a hyphenated label such
as "la-liga-2025-UTC" yields the Madrid entry. -/
theorem infer_timezone_amended :
    detect_timezone none = "UTC" ∧
    detect_timezone (some "") = "UTC" ∧
    detect_timezone (some "La Liga 2025") = "UTC" ∧
    detect_timezone (some "la-liga-2025-UTC") = "Europe/Madrid" ∧
    (∀ s : String, s ≠ "" →
      (∀ kv ∈ LEAGUE_TZ_MAP, isSubstrB kv.1 (strLower s) = false) →
      detect_timezone (some s) = "UTC") ∧
    (∀ s : String, s ≠ "" → ∀ kv,
      LEAGUE_TZ_MAP.find? (fun p => isSubstrB p.1 (strLower s)) = some kv →
      detect_timezone (some s) = kv.2) := by
  refine ⟨rfl, rfl, by decide!, by decide!, ?_, ?_⟩
  · intro s hs hnone
    have hfind : LEAGUE_TZ_MAP.find? (fun kv => isSubstrB kv.1 (strLower s)) =
        none := by
      apply List.find?_eq_none.mpr
      intro kv hkv
      simp [hnone kv hkv]
    simp only [detect_timezone, if_neg hs, hfind]
  · intro s hs kv hfind
    simp only [detect_timezone, if_neg hs, hfind]

theorem infer_timezone_amended_witness :
    detect_timezone (some "x epl x") = "Europe/London" := by
  have h := infer_timezone_amended
  exact h.2.2.2.2.2 "x epl x" (by decide) ("epl", "Europe/London") (by decide!)
